import Mathlib

/-!
# Verification of the reversi_server game-session engine and frontend client

The repository is a Reversi (Othello) server with a FastAPI backend and a
vanilla-JS frontend.  The backend game engine (`backend/game.py`,
`backend/main.py`) is not present in the source tree we verify against; only
the frontend (`frontend/script.js`) and the README are.  Definitions for the
engine are therefore modelled from the words of the specification (each such
definition says so in its doc comment); the frontend definitions are shallow
embeddings of `frontend/script.js`.
-/

namespace Reversi

/-- Cell values of the 8×8 board: `{Empty, Black, White}`
(wire encoding 0 / 1 / 2). -/
inductive Cell
  | empty
  | black
  | white
deriving DecidableEq, Repr

/-- The two playable sides. -/
inductive Player
  | black
  | white
deriving DecidableEq, Repr

/-- The cell value holding the piece of a given player. -/
def Player.cell : Player → Cell
  | .black => .black
  | .white => .white

/-- The opposing side. -/
def Player.opp : Player → Player
  | .black => .white
  | .white => .black

/-- Wire encoding of cells for the public state: 0=empty, 1=Black, 2=White. -/
def encodeCell : Cell → Nat
  | .empty => 0
  | .black => 1
  | .white => 2

/-- A board is a list of rows, each row a list of cells; the convention of the
public state, `board[y][x]`: the outer index is `y` (downward), the inner `x`
(rightward), `(0,0)` top-left. -/
abbrev Board := List (List Cell)

/-- The cell at coordinates `(x, y)`, or `none` when `(x, y)` is off the
8×8 board. -/
def cellAt (b : Board) (x y : Int) : Option Cell :=
  if 0 ≤ x ∧ x < 8 ∧ 0 ≤ y ∧ y < 8 then
    some ((b.getD y.toNat []).getD x.toNat Cell.empty)
  else
    none

/-- Writes cell value `c` at `(x, y)`; out-of-range coordinates leave the
board unchanged. -/
def setCell (b : Board) (x y : Int) (c : Cell) : Board :=
  if 0 ≤ x ∧ x < 8 ∧ 0 ≤ y ∧ y < 8 then
    b.set y.toNat ((b.getD y.toNat []).set x.toNat c)
  else
    b

/-- Number of cells of the board holding value `c`. -/
def pieceCount (b : Board) (c : Cell) : Nat :=
  (b.map (fun row => row.count c)).sum

/-- An 8×8 board: 8 rows of 8 cells each. -/
def wellFormed (b : Board) : Prop :=
  b.length = 8 ∧ ∀ row ∈ b, row.length = 8

instance (b : Board) : Decidable (wellFormed b) :=
  inferInstanceAs (Decidable (_ ∧ _))

/-- Modelled from the spec (`backend/game.py` is absent from the source
tree): the 8 compass unit directions, "the 8 unit vectors excluding
(0,0)". -/
def DIRECTIONS : List (Int × Int) :=
  [(-1, -1), (-1, 0), (-1, 1), (0, -1), (0, 1), (1, -1), (1, 0), (1, 1)]

/-- Modelled from the spec: the cells met walking outward from `(x, y)` in
direction `(dx, dy)`, stopping at the board edge.  `fuel` bounds the walk;
8 suffices on an 8×8 board. -/
def walkRay (b : Board) (x y dx dy : Int) : Nat → List Cell
  | 0 => []
  | fuel + 1 =>
    match cellAt b (x + dx) (y + dy) with
    | none => []
    | some c => c :: walkRay b (x + dx) (y + dy) dx dy fuel

/-- Length of the initial run of opponent pieces in a list of cells. -/
def opponentRun (p : Player) : List Cell → Nat
  | [] => 0
  | c :: rest => if c = p.opp.cell then opponentRun p rest + 1 else 0

/-- Modelled from the spec: a ray (the walk in one direction) satisfies the
flank condition iff it starts with one-or-more opponent pieces and the next
cell holds the piece of the mover. -/
def rayFlanks (p : Player) (cells : List Cell) : Bool :=
  decide (1 ≤ opponentRun p cells) &&
    decide (cells.get? (opponentRun p cells) = some p.cell)

/-- Modelled from the spec: `isLegalMove(board, player, x, y)` — the cell is
currently Empty and at least one of the 8 compass directions, walking
outward, encounters first one-or-more opponent pieces and then terminates in
a same-player piece before running off the board or hitting an empty cell. -/
def isLegalMove (b : Board) (p : Player) (x y : Int) : Bool :=
  decide (cellAt b x y = some Cell.empty) &&
    DIRECTIONS.any (fun d => rayFlanks p (walkRay b x y d.1 d.2 8))

/-- Modelled from the spec: the coordinates flipped in one direction — every
opponent piece between `(x, y)` and the terminating same-player piece
(exclusive of the terminator), when that direction satisfies the flank
condition, and nothing otherwise. -/
def flipsInDirection (b : Board) (p : Player) (x y dx dy : Int) :
    List (Int × Int) :=
  let cells := walkRay b x y dx dy 8
  if rayFlanks p cells then
    (List.range (opponentRun p cells)).map
      (fun i => (x + ((i : Int) + 1) * dx, y + ((i : Int) + 1) * dy))
  else
    []

/-- Modelled from the spec: `applyMove(board, player, x, y)` — places the piece
of the player at `(x, y)`, then flips every flanked opponent piece to the
colour of the player. -/
def applyMove (b : Board) (p : Player) (x y : Int) : Board :=
  let flips := DIRECTIONS.flatMap (fun d => flipsInDirection b p x y d.1 d.2)
  let placed := setCell b x y p.cell
  flips.foldl (fun acc q => setCell acc q.1 q.2 p.cell) placed

/-- Modelled from the spec: `legalMoves(board, player)` — all cells
satisfying `isLegalMove`. -/
def legalMoves (b : Board) (p : Player) : List (Int × Int) :=
  (List.range 8).flatMap fun y =>
    (List.range 8).filterMap fun x =>
      if isLegalMove b p (x : Int) (y : Int) then some ((x : Int), (y : Int))
      else none

/-- Modelled from the spec: whether the player has at least one legal
move; used for pass and game-over detection. -/
def hasLegalMove (b : Board) (p : Player) : Bool :=
  !(legalMoves b p).isEmpty

/-- Game outcome: `winner ∈ {Black, White, Draw}` once the game is over. -/
inductive Winner
  | black
  | white
  | draw
deriving DecidableEq, Repr

/-- Modelled from the spec: the side with strictly more pieces, or Draw on
equal counts. -/
def winnerByCount (b : Board) : Winner :=
  let nb := pieceCount b Cell.black
  let nw := pieceCount b Cell.white
  if nw < nb then Winner.black
  else if nb < nw then Winner.white
  else Winner.draw

/-- Modelled from the spec: the state of the game state machine — a board, the
side to move, the over flag and, once over, the winner. -/
structure GameState where
  board : Board
  currentTurn : Player
  isOver : Bool
  winner : Option Winner
deriving DecidableEq, Repr

/-- Modelled from the spec: the standard Reversi opening board — the four
centre cells hold two Black and two White pieces in the canonical diagonal
arrangement (`board[3][3]=White, board[3][4]=Black, board[4][3]=Black,
board[4][4]=White` under the `board[y][x]` convention). -/
def initialBoard : Board :=
  let e := Cell.empty
  [ [e, e, e, e, e, e, e, e],
    [e, e, e, e, e, e, e, e],
    [e, e, e, e, e, e, e, e],
    [e, e, e, Cell.white, Cell.black, e, e, e],
    [e, e, e, Cell.black, Cell.white, e, e, e],
    [e, e, e, e, e, e, e, e],
    [e, e, e, e, e, e, e, e],
    [e, e, e, e, e, e, e, e] ]

/-- Modelled from the spec: initial state — standard opening, Black moves
first, `InProgress` (over flag unset, no winner). -/
def initialState : GameState :=
  { board := initialBoard
    currentTurn := Player.black
    isOver := false
    winner := none }

/-- Modelled from the spec: the `InProgress → …` transition on a successful
`applyMove` for the side to move.  Flips pieces, then recomputes the legal
moves of the other side: if the other side can move the turn passes; otherwise,
if the mover can move again the turn stays with the mover (enforced pass);
otherwise the game is over and the winner is the side with strictly more
pieces, or Draw.  Returns `none` when the request is invalid (game over,
not the turn of the mover, or an illegal cell). -/
def stepMove (g : GameState) (p : Player) (x y : Int) : Option GameState :=
  if g.isOver then none
  else if p ≠ g.currentTurn then none
  else if ¬ isLegalMove g.board p x y then none
  else if hasLegalMove (applyMove g.board p x y) p.opp then
    some { board := applyMove g.board p x y, currentTurn := p.opp,
           isOver := false, winner := none }
  else if hasLegalMove (applyMove g.board p x y) p then
    some { board := applyMove g.board p x y, currentTurn := p,
           isOver := false, winner := none }
  else
    some { board := applyMove g.board p x y, currentTurn := p.opp,
           isOver := true,
           winner := some (winnerByCount (applyMove g.board p x y)) }

/-- The game states reachable from the initial position by moves of the
state machine. -/
inductive Reachable : GameState → Prop
  | init : Reachable initialState
  | step {g : GameState} {p : Player} {x y : Int} {g' : GameState} :
      Reachable g → stepMove g p x y = some g' → Reachable g'

/-- Modelled from the spec, §7: the distinct reportable rejection causes of
a move request. -/
inductive MoveError
  | gameOver
  | badToken
  | notYourTurn
  | illegalSquare
deriving DecidableEq, Repr

/-- Modelled from the spec, §7: the rejection cause of a claim request. -/
inductive ClaimError
  | slotTaken
deriving DecidableEq, Repr

/-- Modelled from the spec, §4.4: an event published to every subscriber of
a session — a `move` event carrying the post-move state, or a `claim` event
carrying the slot-availability summary only. -/
inductive Event
  | moveEvent (state : GameState)
  | claimEvent (blackFilled whiteFilled : Bool)
deriving DecidableEq, Repr

/-- Modelled from the spec, §3: a session — one game state, two side slots
(`none` = Open, `some t` = Filled bound to token `t`; tokens are opaque and
modelled as naturals), and the committed broadcast log that every live
subscriber observes in order. -/
structure Session where
  game : GameState
  blackToken : Option Nat
  whiteToken : Option Nat
  events : List Event
deriving DecidableEq, Repr

/-- The token bound to the slot of a side, `none` while the slot is Open. -/
def Session.slotToken (s : Session) : Player → Option Nat
  | .black => s.blackToken
  | .white => s.whiteToken

/-- Fills the slot of a side with a token. -/
def Session.fillSlot (s : Session) (side : Player) (t : Nat) : Session :=
  match side with
  | .black => { s with blackToken := some t }
  | .white => { s with whiteToken := some t }

/-- Modelled from the spec, §4.3: `Claim(session, side)` — if the slot of
`side` is Open, binds the freshly generated token to it and returns the
token plus the confirmed side (the unguessable token generation is external
randomness, passed in as `fresh`); a `claim` event is published.  If the
slot is already Filled, fails with the slot-taken condition and changes
nothing.  Returns the result together with the post-state session. -/
def claimSide (s : Session) (side : Player) (fresh : Nat) :
    Except ClaimError (Nat × Player) × Session :=
  match s.slotToken side with
  | some _ => (Except.error ClaimError.slotTaken, s)
  | none =>
    let s1 := s.fillSlot side fresh
    (Except.ok (fresh, side),
      { s1 with events :=
          s1.events ++ [Event.claimEvent s1.blackToken.isSome s1.whiteToken.isSome] })

/-- Modelled from the spec, §4.2–§4.3: `ApplyAuthorizedMove` — the game-over
check (GameOver is terminal regardless of token validity), then
`AuthorizeMove` (the slot of the side is Filled with a matching token, and
the side is the current turn), then the board legality check and state
transition of `stepMove`.  On success the move event is published; on any
failure the distinct error is returned and the session is unchanged. -/
def applyAuthorizedMove (s : Session) (side : Player) (tok : Nat)
    (x y : Int) : Except MoveError GameState × Session :=
  if s.game.isOver then (Except.error MoveError.gameOver, s)
  else if s.slotToken side ≠ some tok then (Except.error MoveError.badToken, s)
  else if side ≠ s.game.currentTurn then (Except.error MoveError.notYourTurn, s)
  else
    match stepMove s.game side x y with
    | none => (Except.error MoveError.illegalSquare, s)
    | some g' =>
      (Except.ok g', { s with game := g', events := s.events ++ [Event.moveEvent g'] })

/-!  Shallow embedding of the frontend client, `frontend/script.js`. -/

/-- The public state as the client script reads it (JSON field types):
`board` is the 8×8 grid of 0/1/2 read as `board[y][x]`, `valid_moves` a
list of `[x, y]` pairs, `winner` is `1`, `2`, `0` or `null`. -/
structure ClientState where
  board : List (List Nat)
  current_turn : Nat
  valid_moves : List (Nat × Nat)
  is_over : Bool
  winner : Option Nat
deriving DecidableEq, Repr

/-- The string key the client builds for the cell at `(x, y)` when testing
valid-move membership (script.js line 133). -/
def coordKey (x y : Nat) : String :=
  toString x ++ "," ++ toString y

/-- The string key the client builds from a `valid_moves` entry `m`, using
`m[0]` as the x part and `m[1]` as the y part (script.js line 121). -/
def moveKey (m : Nat × Nat) : String :=
  toString m.1 ++ "," ++ toString m.2

/-- The `validMoves` key list of `renderBoard` (script.js line 121). -/
def validMoveKeys (st : ClientState) : List String :=
  st.valid_moves.map moveKey

/-- What a rendered board cell carries: an occupied cell holds a piece div
with a colour class; an empty cell is either clickable (class `valid-move`
with an onclick handler submitting `makeMove(x, y)`) or inert. -/
inductive CellView
  | piece (cls : String)
  | clickable (x y : Nat)
  | inert
deriving DecidableEq, Repr

/-- Embedding of the cell construction in `renderBoard` (script.js lines
125–136): reads `state.board[y][x]`; a nonzero value renders a piece whose
class is `black` when the value is 1 and `white` otherwise; a zero value
gets the valid-move class and a `makeMove(x, y)` click handler exactly when
`playerRole === state.current_turn` and the key of `(x, y)` occurs among
the valid-move keys. -/
def renderCell (st : ClientState) (playerRole : Option Nat) (x y : Nat) :
    CellView :=
  let cellValue := (st.board.getD y []).getD x 0
  if cellValue ≠ 0 then
    CellView.piece (if cellValue = 1 then "black" else "white")
  else if playerRole = some st.current_turn ∧ coordKey x y ∈ validMoveKeys st then
    CellView.clickable x y
  else
    CellView.inert

/-- Embedding of `renderBoard` (script.js lines 119–141): cells are appended
to the board element row by row — `y` in the outer loop, `x` in the inner —
so the cell for `(x, y)` is the `y*8+x`-th child. -/
def renderBoard (st : ClientState) (playerRole : Option Nat) : List CellView :=
  (List.range 8).flatMap fun y =>
    (List.range 8).map fun x => renderCell st playerRole x y

/-- The move request the client posts to `/game/id/move`. -/
structure MoveRequest where
  x : Nat
  y : Nat
  player : Option Nat
  token : String
deriving DecidableEq, Repr

/-- Embedding of `makeMove` (script.js lines 175–188): when `playerToken`
is null the function returns at once and no request is issued; otherwise it
posts `x`, `y`, the player role and the token. -/
def makeMove (playerToken : Option String) (playerRole : Option Nat)
    (x y : Nat) : Option MoveRequest :=
  match playerToken with
  | none => none
  | some t => some { x := x, y := y, player := playerRole, token := t }

/-- Embedding of the winner text in `updateUI` (script.js line 92):
`winner === 1` gives BLACK WINS, `winner === 2` gives WHITE WINS, anything
else — including `0` and `null` — gives the draw text. -/
def winnerText (winner : Option Nat) : String :=
  if winner = some 1 then "BLACK WINS!"
  else if winner = some 2 then "WHITE WINS!"
  else "IT\x27S A DRAW!"

/-- Embedding of the status message set by `updateUI` (script.js lines
91–98). -/
def statusMessage (st : ClientState) (playerRole : Option Nat) : String :=
  if st.is_over then "GAME OVER: " ++ winnerText st.winner
  else
    "Playing as " ++
      (if playerRole = some 1 then "Black"
       else if playerRole = some 2 then "White"
       else "Spectator")

/-- Declarative statement of the flank condition, following the words of
the spec for one direction `d`: walking outward from `(x, y)`, the first
`k ≥ 1` cells hold opponent pieces and the walk then terminates in a
same-player piece, all within the board. -/
def FlankInDir (b : Board) (p : Player) (x y : Int) (d : Int × Int) : Prop :=
  ∃ k : Nat, 1 ≤ k ∧
    (∀ i : Nat, 1 ≤ i → i ≤ k →
      cellAt b (x + (i : Int) * d.1) (y + (i : Int) * d.2) = some p.opp.cell) ∧
    cellAt b (x + ((k : Int) + 1) * d.1) (y + ((k : Int) + 1) * d.2) = some p.cell

/-- A crafted position used as a concrete witness: row 5 holds
White (3,5), Black (4,5), White (5,5), Black (7,5), everything else
empty.  Black to move at (6,5) flips (5,5); afterwards White has no legal
move while Black still has one, forcing the enforced pass. -/
def passDemoBoard : Board :=
  let e := Cell.empty
  [ [e, e, e, e, e, e, e, e],
    [e, e, e, e, e, e, e, e],
    [e, e, e, e, e, e, e, e],
    [e, e, e, e, e, e, e, e],
    [e, e, e, e, e, e, e, e],
    [e, e, e, Cell.white, Cell.black, Cell.white, e, Cell.black],
    [e, e, e, e, e, e, e, e],
    [e, e, e, e, e, e, e, e] ]

/-- The crafted position wrapped as an in-progress game with Black to
move. -/
def passDemoState : GameState :=
  { board := passDemoBoard
    currentTurn := Player.black
    isOver := false
    winner := none }

/-- The state after Black plays (6,5) on the crafted position. -/
def passDemoPost : GameState :=
  { board := applyMove passDemoBoard Player.black 6 5
    currentTurn := Player.black
    isOver := false
    winner := none }

/-- A concrete session used as a witness: fresh game, Black slot Filled
with token 7, White slot Open, no events committed yet. -/
def demoSession : Session :=
  { game := initialState
    blackToken := some 7
    whiteToken := none
    events := [] }

/-- A concrete client state used as a witness: empty board, turn Black,
one hinted move at (2,3). -/
def demoClientState : ClientState :=
  { board := List.replicate 8 (List.replicate 8 0)
    current_turn := 1
    valid_moves := [(2, 3)]
    is_over := false
    winner := none }

/-- A concrete finished client state used as a witness. -/
def demoOverState : ClientState :=
  { board := List.replicate 8 (List.replicate 8 1)
    current_turn := 1
    valid_moves := []
    is_over := true
    winner := some 1 }

/-! ## Helper lemmas -/

lemma flatMap_range_length {α : Type} (f : Nat → List α) (m : Nat)
    (h : ∀ j, (f j).length = m) :
    ∀ n, ((List.range n).flatMap f).length = n * m := by
  intro n
  induction n with
  | zero => simp
  | succ k ih =>
    rw [List.range_succ, List.flatMap_append, List.length_append, ih]
    simp [h]
    ring

lemma flatMap_range_getElem? {α : Type} (f : Nat → List α) (m : Nat)
    (h : ∀ j, (f j).length = m) :
    ∀ n y x, y < n → x < m →
      ((List.range n).flatMap f)[y * m + x]? = (f y)[x]? := by
  intro n
  induction n with
  | zero => intro y x hy; omega
  | succ k ih =>
    intro y x hy hx
    rw [List.range_succ, List.flatMap_append]
    by_cases hyk : y < k
    · rw [List.getElem?_append, if_pos]
      · exact ih y x hyk hx
      · rw [flatMap_range_length f m h k]
        have h1 : (y + 1) * m ≤ k * m := Nat.mul_le_mul_right m (by omega)
        have h2 : y * m + x < (y + 1) * m := by
          have : (y + 1) * m = y * m + m := by ring
          omega
        omega
    · have hyEq : y = k := by omega
      subst hyEq
      rw [List.getElem?_append_right]
      · rw [flatMap_range_length f m h y]
        simp
      · rw [flatMap_range_length f m h y]
        omega

/-! ## Claims about the frontend client -/

/-- C8: the public state uses piece encoding 0=Empty, 1=Black, 2=White over
an 8×8 grid with `(0,0)` top-left, `x` rightward, `y` downward: the cell the
client renders at grid position `(x, y)` — the `y*8+x`-th appended cell —
reads `board[y][x]`, value 1 renders a black piece and value 2 a white
piece, and each `valid_moves` entry is keyed with its first component as
`x` and its second as `y`. -/
theorem public_state_grid_convention :
    ∀ (st : ClientState) (role : Option Nat) (x y : Nat), x < 8 → y < 8 →
      (renderBoard st role)[y * 8 + x]? = some (renderCell st role x y) ∧
      ((st.board.getD y []).getD x 0 = 1 →
        renderCell st role x y = CellView.piece "black") ∧
      ((st.board.getD y []).getD x 0 = 2 →
        renderCell st role x y = CellView.piece "white") ∧
      encodeCell Cell.empty = 0 ∧ encodeCell Cell.black = 1 ∧
      encodeCell Cell.white = 2 ∧
      (∀ m : Nat × Nat, moveKey m = coordKey m.1 m.2) := by
  intro st role x y hx hy
  refine ⟨?_, ?_, ?_, rfl, rfl, rfl, fun m => rfl⟩
  · have hlen : ∀ j, ((List.range 8).map fun x => renderCell st role x j).length = 8 := by
      intro j; simp
    have := flatMap_range_getElem?
      (fun j => (List.range 8).map fun x => renderCell st role x j) 8 hlen 8 y x hy hx
    rw [renderBoard, this]
    simp [List.getElem?_map, List.getElem?_range, hx]
  · intro h1
    simp only [renderCell]
    rw [h1]
    simp
  · intro h2
    simp only [renderCell]
    rw [h2]
    simp

/-- Concrete instantiation of `public_state_grid_convention` at the demo
client state and cell (0,0). -/
theorem public_state_grid_convention_witness :
    (renderBoard demoClientState none)[0 * 8 + 0]? =
        some (renderCell demoClientState none 0 0) ∧
      ((demoClientState.board.getD 0 []).getD 0 0 = 1 →
        renderCell demoClientState none 0 0 = CellView.piece "black") ∧
      ((demoClientState.board.getD 0 []).getD 0 0 = 2 →
        renderCell demoClientState none 0 0 = CellView.piece "white") ∧
      encodeCell Cell.empty = 0 ∧ encodeCell Cell.black = 1 ∧
      encodeCell Cell.white = 2 ∧
      (∀ m : Nat × Nat, moveKey m = coordKey m.1 m.2) :=
  public_state_grid_convention demoClientState none 0 0 (by decide) (by decide)

/-- C9: the client attaches a move-submitting click handler to a cell only
when the cell value is 0, the cell key occurs among the valid-move keys
(so some `valid_moves` entry has that key), and the player role equals the
current turn; and `makeMove` issues no request when the token is null. -/
theorem client_move_guard :
    ∀ (st : ClientState) (role : Option Nat) (x y : Nat),
      (renderCell st role x y = CellView.clickable x y →
        (st.board.getD y []).getD x 0 = 0 ∧
        role = some st.current_turn ∧
        ∃ m ∈ st.valid_moves, moveKey m = coordKey x y) ∧
      makeMove none role x y = none := by
  intro st role x y
  refine ⟨?_, rfl⟩
  intro h
  by_cases h0 : (st.board.getD y []).getD x 0 = 0
  · by_cases hc : role = some st.current_turn ∧ coordKey x y ∈ validMoveKeys st
    · refine ⟨h0, hc.1, ?_⟩
      have := hc.2
      rw [validMoveKeys] at this
      exact List.mem_map.mp this
    · exfalso
      simp only [renderCell, h0] at h
      rw [if_neg (by simp), if_neg hc] at h
      exact CellView.noConfusion h
  · exfalso
    simp only [renderCell] at h
    rw [if_pos h0] at h
    exact CellView.noConfusion h

/-- Concrete instantiation of `client_move_guard` at the demo client state
and its hinted cell (2,3). -/
theorem client_move_guard_witness :
    ((demoClientState.board.getD 3 []).getD 2 0 = 0 ∧
      some 1 = some demoClientState.current_turn ∧
      ∃ m ∈ demoClientState.valid_moves, moveKey m = coordKey 2 3) ∧
    makeMove none (some 1) 2 3 = none :=
  ⟨(client_move_guard demoClientState (some 1) 2 3).1 (by decide),
   (client_move_guard demoClientState (some 1) 2 3).2⟩

/-- C10: with `is_over` true, `updateUI` displays BLACK WINS for winner 1,
WHITE WINS for winner 2, and the draw text for every other winner value;
in particular the declared draw `0` and the unset `null` display
identically. -/
theorem updateUI_gameOver_text :
    ∀ (st : ClientState) (role : Option Nat), st.is_over = true →
      (st.winner = some 1 → statusMessage st role = "GAME OVER: BLACK WINS!") ∧
      (st.winner = some 2 → statusMessage st role = "GAME OVER: WHITE WINS!") ∧
      (st.winner ≠ some 1 → st.winner ≠ some 2 →
        statusMessage st role = "GAME OVER: IT\x27S A DRAW!") ∧
      winnerText (some 0) = winnerText none := by
  intro st role hover
  refine ⟨?_, ?_, ?_, rfl⟩
  · intro h1
    simp [statusMessage, hover, winnerText, h1]
  · intro h2
    simp [statusMessage, hover, winnerText, h2]
  · intro h1 h2
    simp [statusMessage, hover, winnerText, h1, h2]

/-- Concrete instantiation of `updateUI_gameOver_text` at the finished demo
client state. -/
theorem updateUI_gameOver_text_witness :
    statusMessage demoOverState none = "GAME OVER: BLACK WINS!" :=
  (updateUI_gameOver_text demoOverState none rfl).1 rfl

/-! ## Claims about the session layer -/

lemma cell_ne_opp (p : Player) : p.cell ≠ p.opp.cell := by
  cases p <;> simp [Player.cell, Player.opp]

lemma stepMove_none_notLegal {g : GameState} {p : Player} {x y : Int}
    (h : stepMove g p x y = none) (ho : g.isOver = false)
    (ht : p = g.currentTurn) : isLegalMove g.board p x y = false := by
  by_cases hl : isLegalMove g.board p x y = true
  · exfalso
    rw [stepMove] at h
    simp only [ho, ← ht, hl] at h
    simp at h
    split_ifs at h
  · simpa using hl

/-- C4: every rejected move request — game over, token mismatch, wrong
turn, or illegal square — leaves the session (board, turn, slots)
unchanged, commits no event to the broadcast log (so no subscriber sees a
move event), and reports a distinct error per cause. -/
theorem rejected_move_no_mutation :
    ∀ (s : Session) (side : Player) (tok : Nat) (x y : Int) (e : MoveError),
      (applyAuthorizedMove s side tok x y).1 = Except.error e →
      (applyAuthorizedMove s side tok x y).2 = s ∧
      (applyAuthorizedMove s side tok x y).2.events = s.events ∧
      (s.game.isOver = true → e = MoveError.gameOver) ∧
      (s.game.isOver = false → s.slotToken side ≠ some tok →
        e = MoveError.badToken) ∧
      (s.game.isOver = false → s.slotToken side = some tok →
        side ≠ s.game.currentTurn → e = MoveError.notYourTurn) ∧
      (s.game.isOver = false → s.slotToken side = some tok →
        side = s.game.currentTurn →
        e = MoveError.illegalSquare ∧
          isLegalMove s.game.board side x y = false) := by
  intro s side tok x y e h
  unfold applyAuthorizedMove at h ⊢
  split_ifs at h ⊢ with h1 h2 h3
  · injection h with h
    subst h
    refine ⟨rfl, rfl, fun _ => rfl, ?_, ?_, ?_⟩
    · intro hfalse _
      rw [h1] at hfalse
      exact Bool.noConfusion hfalse
    · intro hfalse _ _
      rw [h1] at hfalse
      exact Bool.noConfusion hfalse
    · intro hfalse _ _
      rw [h1] at hfalse
      exact Bool.noConfusion hfalse
  · injection h with h
    subst h
    refine ⟨rfl, rfl, ?_, fun _ _ => rfl, ?_, ?_⟩
    · intro htrue; exact absurd htrue h1
    · intro _ hmatch _; exact absurd hmatch h2
    · intro _ hmatch _; exact absurd hmatch h2
  · injection h with h
    subst h
    refine ⟨rfl, rfl, ?_, ?_, fun _ _ _ => rfl, ?_⟩
    · intro htrue; exact absurd htrue h1
    · intro _ hmismatch; exact absurd (not_not.mp h2) hmismatch
    · intro _ _ hturn; exact absurd hturn h3
  · revert h
    have ho : s.game.isOver = false := by
      revert h1; cases s.game.isOver <;> simp
    have ht : side = s.game.currentTurn := not_not.mp h3
    cases hstep : stepMove s.game side x y with
    | some g' =>
      intro h
      cases h
    | none =>
      intro h
      injection h with h
      subst h
      refine ⟨rfl, rfl, ?_, ?_, ?_, ?_⟩
      · intro htrue; exact absurd htrue h1
      · intro _ hmismatch; exact absurd (not_not.mp h2) hmismatch
      · intro _ _ hturn; exact absurd ht hturn
      · intro _ _ _
        exact ⟨rfl, stepMove_none_notLegal hstep ho ht⟩

/-- Concrete instantiation of `rejected_move_no_mutation`: a move on the
demo session with a mismatched token (99 against the bound 7) is rejected
as bad-token and changes nothing. -/
theorem rejected_move_no_mutation_witness :
    (applyAuthorizedMove demoSession Player.black 99 2 3).2 = demoSession ∧
    (applyAuthorizedMove demoSession Player.black 99 2 3).2.events =
      demoSession.events ∧
    (demoSession.game.isOver = true → MoveError.badToken = MoveError.gameOver) ∧
    (demoSession.game.isOver = false →
      demoSession.slotToken Player.black ≠ some 99 →
      MoveError.badToken = MoveError.badToken) ∧
    (demoSession.game.isOver = false →
      demoSession.slotToken Player.black = some 99 →
      Player.black ≠ demoSession.game.currentTurn →
      MoveError.badToken = MoveError.notYourTurn) ∧
    (demoSession.game.isOver = false →
      demoSession.slotToken Player.black = some 99 →
      Player.black = demoSession.game.currentTurn →
      MoveError.badToken = MoveError.illegalSquare ∧
        isLegalMove demoSession.game.board Player.black 2 3 = false) :=
  rejected_move_no_mutation demoSession Player.black 99 2 3
    MoveError.badToken rfl

/-- C5: claiming an Open slot binds the fresh token to it and returns that
token with the confirmed side, touching neither the game nor the other
slot; claiming a Filled slot always fails with the slot-taken condition,
leaves the whole session (its bound token included) unchanged, and never
issues a second token. -/
theorem claim_slot_semantics :
    ∀ (s : Session) (side : Player) (fresh : Nat),
      (s.slotToken side = none →
        (claimSide s side fresh).1 = Except.ok (fresh, side) ∧
        (claimSide s side fresh).2.slotToken side = some fresh ∧
        (claimSide s side fresh).2.game = s.game ∧
        (claimSide s side fresh).2.slotToken side.opp = s.slotToken side.opp) ∧
      (∀ t : Nat, s.slotToken side = some t →
        (claimSide s side fresh).1 = Except.error ClaimError.slotTaken ∧
        (claimSide s side fresh).2 = s) := by
  intro s side fresh
  constructor
  · intro hopen
    unfold claimSide
    rw [hopen]
    cases side <;>
      simp [Session.slotToken, Session.fillSlot, Player.opp]
  · intro t htaken
    unfold claimSide
    rw [htaken]
    exact ⟨rfl, rfl⟩

/-- Concrete instantiation of `claim_slot_semantics`: on the demo session
the Open white slot is claimed with token 42, while a claim on the Filled
black slot (bound token 7) fails and leaves the session unchanged. -/
theorem claim_slot_semantics_witness :
    ((claimSide demoSession Player.white 42).1 =
        Except.ok (42, Player.white) ∧
      (claimSide demoSession Player.white 42).2.slotToken Player.white =
        some 42 ∧
      (claimSide demoSession Player.white 42).2.game = demoSession.game ∧
      (claimSide demoSession Player.white 42).2.slotToken Player.white.opp =
        demoSession.slotToken Player.white.opp) ∧
    ((claimSide demoSession Player.black 5).1 =
        Except.error ClaimError.slotTaken ∧
      (claimSide demoSession Player.black 5).2 = demoSession) :=
  ⟨(claim_slot_semantics demoSession Player.white 42).1 rfl,
   (claim_slot_semantics demoSession Player.black 5).2 7 rfl⟩

/-! ## Claims about the game state machine -/

lemma stepMove_some_spec {g : GameState} {p : Player} {x y : Int}
    {g' : GameState} (h : stepMove g p x y = some g') :
    g.isOver = false ∧ p = g.currentTurn ∧
    isLegalMove g.board p x y = true ∧
    g'.board = applyMove g.board p x y ∧
    ((hasLegalMove g'.board p.opp = true ∧ g'.currentTurn = p.opp ∧
        g'.isOver = false ∧ g'.winner = none) ∨
     (hasLegalMove g'.board p.opp = false ∧ hasLegalMove g'.board p = true ∧
        g'.currentTurn = p ∧ g'.isOver = false ∧ g'.winner = none) ∨
     (hasLegalMove g'.board p.opp = false ∧ hasLegalMove g'.board p = false ∧
        g'.currentTurn = p.opp ∧ g'.isOver = true ∧
        g'.winner = some (winnerByCount g'.board))) := by
  unfold stepMove at h
  split_ifs at h with h1 h2 h3 h4 h5
  · injection h with h
    subst h
    have ho : g.isOver = false := by revert h1; cases g.isOver <;> simp
    exact ⟨ho, not_not.mp h2, h3, rfl, Or.inl ⟨h4, rfl, rfl, rfl⟩⟩
  · injection h with h
    subst h
    have ho : g.isOver = false := by revert h1; cases g.isOver <;> simp
    have h4' : hasLegalMove (applyMove g.board p x y) p.opp = false := by
      revert h4; cases hasLegalMove (applyMove g.board p x y) p.opp <;> simp
    exact ⟨ho, not_not.mp h2, h3, rfl,
      Or.inr (Or.inl ⟨h4', h5, rfl, rfl, rfl⟩)⟩
  · injection h with h
    subst h
    have ho : g.isOver = false := by revert h1; cases g.isOver <;> simp
    have h4' : hasLegalMove (applyMove g.board p x y) p.opp = false := by
      revert h4; cases hasLegalMove (applyMove g.board p x y) p.opp <;> simp
    have h5' : hasLegalMove (applyMove g.board p x y) p = false := by
      revert h5; cases hasLegalMove (applyMove g.board p x y) p <;> simp
    exact ⟨ho, not_not.mp h2, h3, rfl,
      Or.inr (Or.inr ⟨h4', h5', rfl, rfl, rfl⟩)⟩

/-- C2: when a successful move leaves the opponent with no legal move while
the mover still has one, the turn stays with the mover (enforced pass) and
the game stays in progress — the state already returned to the mover shows
the current turn as the side of the mover. -/
theorem enforced_pass :
    ∀ (g : GameState) (p : Player) (x y : Int) (g' : GameState),
      stepMove g p x y = some g' →
      hasLegalMove g'.board p.opp = false →
      hasLegalMove g'.board p = true →
      g'.currentTurn = p ∧ g'.isOver = false := by
  intro g p x y g' h hOpp hSelf
  obtain ⟨-, -, -, -, hcase⟩ := stepMove_some_spec h
  rcases hcase with ⟨hMove, -, -, -⟩ | ⟨-, -, hT, hO, -⟩ | ⟨-, hF, -, -, -⟩
  · rw [hOpp] at hMove
    exact Bool.noConfusion hMove
  · exact ⟨hT, hO⟩
  · rw [hSelf] at hF
    exact Bool.noConfusion hF

/-- Concrete instantiation of `enforced_pass`: on the crafted position
Black plays (6,5); afterwards White has no legal move, Black does, and
the returned state keeps the turn with Black, game in progress. -/
theorem enforced_pass_witness :
    passDemoPost.currentTurn = Player.black ∧ passDemoPost.isOver = false :=
  enforced_pass passDemoState Player.black 6 5 passDemoPost
    (by decide) (by decide) (by decide)

lemma isOver_false_of_mover {g' : GameState} {p : Player}
    (hSelf : hasLegalMove g'.board p = true)
    (hB : hasLegalMove g'.board Player.black = false)
    (hW : hasLegalMove g'.board Player.white = false) : False := by
  cases p
  · rw [hB] at hSelf; exact Bool.noConfusion hSelf
  · rw [hW] at hSelf; exact Bool.noConfusion hSelf

/-- C3: for every reachable game state, the over flag holds exactly when
neither side has a legal move on the current board; when the game is over
the winner is the side with strictly more pieces (Draw on equal counts);
and the winner is set only when the game is over.  In particular a
successful move after which neither side can move yields a reachable state
that is over with that winner. -/
theorem gameOver_invariant :
    ∀ g : GameState, Reachable g →
      (g.isOver = true ↔
        (hasLegalMove g.board Player.black = false ∧
         hasLegalMove g.board Player.white = false)) ∧
      (g.isOver = true → g.winner = some (winnerByCount g.board)) ∧
      (g.winner ≠ none → g.isOver = true) := by
  intro g hg
  induction hg with
  | init => exact ⟨by decide, by decide, by decide⟩
  | @step g0 p x y g' hg0 hstep ih =>
    obtain ⟨-, -, -, -, hcase⟩ := stepMove_some_spec hstep
    rcases hcase with ⟨hMove, hT, hO, hW⟩ | ⟨hOpp, hSelf, hT, hO, hW⟩ |
      ⟨hOpp, hSelf, hT, hO, hW⟩
    · refine ⟨?_, ?_, ?_⟩
      · rw [hO]
        constructor
        · intro hfalse; exact Bool.noConfusion hfalse
        · rintro ⟨hB, hW2⟩
          exact (isOver_false_of_mover hMove hB hW2).elim
      · intro habs; rw [hO] at habs; exact Bool.noConfusion habs
      · intro hne; exact absurd hW hne
    · refine ⟨?_, ?_, ?_⟩
      · rw [hO]
        constructor
        · intro hfalse; exact Bool.noConfusion hfalse
        · rintro ⟨hB, hW2⟩
          exact (isOver_false_of_mover hSelf hB hW2).elim
      · intro habs; rw [hO] at habs; exact Bool.noConfusion habs
      · intro hne; exact absurd hW hne
    · refine ⟨?_, fun _ => hW, fun _ => hO⟩
      rw [hO]
      refine ⟨fun _ => ?_, fun _ => rfl⟩
      cases p
      · exact ⟨hSelf, by simpa [Player.opp] using hOpp⟩
      · exact ⟨by simpa [Player.opp] using hOpp, hSelf⟩

/-- Concrete instantiation of `gameOver_invariant` at the initial state. -/
theorem gameOver_invariant_witness :
    (initialState.isOver = true ↔
      (hasLegalMove initialState.board Player.black = false ∧
       hasLegalMove initialState.board Player.white = false)) ∧
    (initialState.isOver = true →
      initialState.winner = some (winnerByCount initialState.board)) ∧
    (initialState.winner ≠ none → initialState.isOver = true) :=
  gameOver_invariant initialState Reachable.init

lemma wellFormed_setCell {b : Board} (h : wellFormed b) (x y : Int)
    (c : Cell) : wellFormed (setCell b x y c) := by
  unfold setCell
  split_ifs with hb
  · constructor
    · rw [List.length_set]; exact h.1
    · intro row hrow
      rcases List.mem_or_eq_of_mem_set hrow with hmem | hEq
      · exact h.2 row hmem
      · subst hEq
        rw [List.length_set]
        have hy : y.toNat < b.length := by rw [h.1]; omega
        rw [List.getD_eq_getElem b [] hy]
        exact h.2 _ (List.getElem_mem hy)
  · exact h

lemma wellFormed_foldl_setCell (c : Cell) :
    ∀ (L : List (Int × Int)) (b : Board), wellFormed b →
      wellFormed (L.foldl (fun acc q => setCell acc q.1 q.2 c) b) := by
  intro L
  induction L with
  | nil => intro b hb; exact hb
  | cons q t ih =>
    intro b hb
    exact ih _ (wellFormed_setCell hb _ _ _)

lemma wellFormed_applyMove {b : Board} (h : wellFormed b) (p : Player)
    (x y : Int) : wellFormed (applyMove b p x y) :=
  wellFormed_foldl_setCell _ _ _ (wellFormed_setCell h x y _)

lemma reachable_wellFormed : ∀ g : GameState, Reachable g →
    wellFormed g.board := by
  intro g hg
  induction hg with
  | init => decide
  | @step g0 p x y g' hg0 hstep ih =>
    obtain ⟨-, -, -, hb, -⟩ := stepMove_some_spec hstep
    rw [hb]
    exact wellFormed_applyMove ih p x y

lemma count_three (l : List Cell) :
    l.count Cell.black + l.count Cell.white + l.count Cell.empty =
      l.length := by
  induction l with
  | nil => rfl
  | cons c t ih =>
    cases c <;> simp [List.count_cons] <;> omega

lemma pieceCount_three : ∀ b : Board,
    pieceCount b Cell.black + pieceCount b Cell.white +
      pieceCount b Cell.empty = (b.map List.length).sum := by
  intro b
  induction b with
  | nil => rfl
  | cons r t ih =>
    simp only [pieceCount, List.map_cons, List.sum_cons] at ih ⊢
    have := count_three r
    omega

lemma sum_map_length_const :
    ∀ b : Board, (∀ r ∈ b, r.length = 8) →
      (b.map List.length).sum = 8 * b.length := by
  intro b
  induction b with
  | nil => simp
  | cons r t ih =>
    intro h
    simp only [List.map_cons, List.sum_cons, List.length_cons]
    rw [ih (fun r2 hr => h r2 (List.mem_cons_of_mem _ hr)),
      h r (List.mem_cons_self _ _)]
    ring

/-- C6: every board reachable from the initial position has its Black,
White and Empty cell counts summing to exactly 64, and every cell holds
exactly one of the three values. -/
theorem board_cell_conservation :
    ∀ g : GameState, Reachable g →
      pieceCount g.board Cell.black + pieceCount g.board Cell.white +
        pieceCount g.board Cell.empty = 64 ∧
      ∀ (x y : Int) (c : Cell), cellAt g.board x y = some c →
        c = Cell.empty ∨ c = Cell.black ∨ c = Cell.white := by
  intro g hg
  constructor
  · have hwf := reachable_wellFormed g hg
    rw [pieceCount_three, sum_map_length_const g.board hwf.2, hwf.1]
  · intro x y c _
    cases c
    · exact Or.inl rfl
    · exact Or.inr (Or.inl rfl)
    · exact Or.inr (Or.inr rfl)

/-- Concrete instantiation of `board_cell_conservation` at the initial
state. -/
theorem board_cell_conservation_witness :
    pieceCount initialState.board Cell.black +
      pieceCount initialState.board Cell.white +
      pieceCount initialState.board Cell.empty = 64 ∧
    ∀ (x y : Int) (c : Cell), cellAt initialState.board x y = some c →
      c = Cell.empty ∨ c = Cell.black ∨ c = Cell.white :=
  board_cell_conservation initialState Reachable.init

lemma count_set_le {α : Type} [DecidableEq α] :
    ∀ (l : List α) (n : Nat) (c e : α), e ≠ c →
      (l.set n c).count e ≤ l.count e := by
  intro l
  induction l with
  | nil => intro n c e _; simp
  | cons a t ih =>
    intro n c e h
    cases n with
    | zero =>
      rw [List.set_cons_zero, List.count_cons, List.count_cons]
      simp only [beq_iff_eq]
      rw [if_neg (fun hc => h hc.symm)]
      omega
    | succ m =>
      rw [List.set_cons_succ, List.count_cons, List.count_cons]
      have := ih m c e h
      omega

lemma count_set_ge {α : Type} [DecidableEq α] :
    ∀ (l : List α) (n : Nat) (c : α), l.count c ≤ (l.set n c).count c := by
  intro l
  induction l with
  | nil => intro n c; simp
  | cons a t ih =>
    intro n c
    cases n with
    | zero =>
      rw [List.set_cons_zero, List.count_cons, List.count_cons]
      simp only [beq_iff_eq, if_pos rfl]
      split_ifs <;> omega
    | succ m =>
      rw [List.set_cons_succ, List.count_cons, List.count_cons]
      have := ih m c
      omega

lemma count_set_lt {α : Type} [DecidableEq α] :
    ∀ (l : List α) (n : Nat) (c : α) (hn : n < l.length), l[n] ≠ c →
      l.count c < (l.set n c).count c := by
  intro l
  induction l with
  | nil => intro n c hn _; simp at hn
  | cons a t ih =>
    intro n c hn hne
    cases n with
    | zero =>
      rw [List.getElem_cons_zero] at hne
      rw [List.set_cons_zero, List.count_cons, List.count_cons]
      have h1 : (c == c) = true := by simp
      have h2 : (a == c) = false := by simp [hne]
      rw [h1, h2]
      simp
    | succ m =>
      rw [List.getElem_cons_succ] at hne
      rw [List.set_cons_succ, List.count_cons, List.count_cons]
      have := ih m c (by simpa using hn) hne
      omega

lemma sum_map_set {ρ : Type} (f : ρ → Nat) :
    ∀ (b : List ρ) (k : Nat) (r : ρ) (hk : k < b.length),
      ((b.set k r).map f).sum + f b[k] = (b.map f).sum + f r := by
  intro b
  induction b with
  | nil => intro k r hk; simp at hk
  | cons a t ih =>
    intro k r hk
    cases k with
    | zero =>
      simp only [List.set_cons_zero, List.map_cons, List.sum_cons,
        List.getElem_cons_zero]
      omega
    | succ m =>
      simp only [List.set_cons_succ, List.map_cons, List.sum_cons,
        List.getElem_cons_succ]
      have := ih m r (by simpa using hk)
      omega

lemma pieceCount_setCell_le {b : Board} {x y : Int} {c e : Cell}
    (h : e ≠ c) : pieceCount (setCell b x y c) e ≤ pieceCount b e := by
  unfold setCell
  split_ifs with hb
  · by_cases hk : y.toNat < b.length
    · rw [List.getD_eq_getElem b [] hk]
      have hs := sum_map_set (fun row => List.count e row) b y.toNat
        (b[y.toNat].set x.toNat c) hk
      have hc := count_set_le b[y.toNat] x.toNat c e h
      unfold pieceCount
      simp only at hs
      omega
    · rw [List.set_eq_of_length_le (by omega)]
  · exact le_refl _

lemma pieceCount_setCell_ge {b : Board} {x y : Int} {c : Cell} :
    pieceCount b c ≤ pieceCount (setCell b x y c) c := by
  unfold setCell
  split_ifs with hb
  · by_cases hk : y.toNat < b.length
    · rw [List.getD_eq_getElem b [] hk]
      have hs := sum_map_set (fun row => List.count c row) b y.toNat
        (b[y.toNat].set x.toNat c) hk
      have hc := count_set_ge b[y.toNat] x.toNat c
      unfold pieceCount
      simp only at hs
      omega
    · rw [List.set_eq_of_length_le (by omega)]
  · exact le_refl _

lemma pieceCount_setCell_lt {b : Board} {x y : Int} {c : Cell}
    (hwf : wellFormed b) (hb : 0 ≤ x ∧ x < 8 ∧ 0 ≤ y ∧ y < 8)
    (hold : (b.getD y.toNat []).getD x.toNat Cell.empty ≠ c) :
    pieceCount b c < pieceCount (setCell b x y c) c := by
  unfold setCell
  rw [if_pos hb]
  have hk : y.toNat < b.length := by rw [hwf.1]; omega
  have hrow : b.getD y.toNat [] = b[y.toNat] := List.getD_eq_getElem b [] hk
  have hxl : x.toNat < (b[y.toNat]).length := by
    rw [hwf.2 _ (List.getElem_mem hk)]
    omega
  have hold2 : (b[y.toNat])[x.toNat] ≠ c := by
    rw [hrow, List.getD_eq_getElem _ _ hxl] at hold
    exact hold
  have hc := count_set_lt (b[y.toNat]) x.toNat c hxl hold2
  have hs := sum_map_set (fun row => List.count c row) b y.toNat
    ((b[y.toNat]).set x.toNat c) hk
  rw [hrow]
  unfold pieceCount
  simp only at hs
  omega

lemma pieceCount_foldl_ge (c : Cell) :
    ∀ (L : List (Int × Int)) (b : Board),
      pieceCount b c ≤
        pieceCount (L.foldl (fun acc q => setCell acc q.1 q.2 c) b) c := by
  intro L
  induction L with
  | nil => intro b; exact le_refl _
  | cons q t ih =>
    intro b
    exact le_trans pieceCount_setCell_ge (ih (setCell b q.1 q.2 c))

lemma pieceCount_foldl_le (c e : Cell) (h : e ≠ c) :
    ∀ (L : List (Int × Int)) (b : Board),
      pieceCount (L.foldl (fun acc q => setCell acc q.1 q.2 c) b) e ≤
        pieceCount b e := by
  intro L
  induction L with
  | nil => intro b; exact le_refl _
  | cons q t ih =>
    intro b
    exact le_trans (ih (setCell b q.1 q.2 c)) (pieceCount_setCell_le h)

/-- C7: applying a legal move strictly increases the piece count of the
mover and never increases that of the opponent.  The board is an 8×8 grid
(`wellFormed`), as the data model fixes. -/
theorem applyMove_piece_counts :
    ∀ (b : Board) (p : Player) (x y : Int), wellFormed b →
      isLegalMove b p x y = true →
      pieceCount b p.cell < pieceCount (applyMove b p x y) p.cell ∧
      pieceCount (applyMove b p x y) p.opp.cell ≤ pieceCount b p.opp.cell := by
  intro b p x y hwf hlegal
  have hempty : cellAt b x y = some Cell.empty := by
    unfold isLegalMove at hlegal
    rw [Bool.and_eq_true] at hlegal
    exact of_decide_eq_true hlegal.1
  have hbnd : (0 ≤ x ∧ x < 8 ∧ 0 ≤ y ∧ y < 8) ∧
      (b.getD y.toNat []).getD x.toNat Cell.empty = Cell.empty := by
    unfold cellAt at hempty
    split_ifs at hempty with hin
    exact ⟨hin, Option.some.inj hempty⟩
  have hne : (b.getD y.toNat []).getD x.toNat Cell.empty ≠ p.cell := by
    rw [hbnd.2]
    cases p <;> simp [Player.cell]
  constructor
  · have h1 : pieceCount b p.cell < pieceCount (setCell b x y p.cell) p.cell :=
      pieceCount_setCell_lt hwf hbnd.1 hne
    have h2 : pieceCount (setCell b x y p.cell) p.cell ≤
        pieceCount (applyMove b p x y) p.cell :=
      pieceCount_foldl_ge p.cell
        (DIRECTIONS.flatMap fun d => flipsInDirection b p x y d.1 d.2)
        (setCell b x y p.cell)
    exact lt_of_lt_of_le h1 h2
  · have h1 : pieceCount (applyMove b p x y) p.opp.cell ≤
        pieceCount (setCell b x y p.cell) p.opp.cell :=
      pieceCount_foldl_le p.cell p.opp.cell (Ne.symm (cell_ne_opp p))
        (DIRECTIONS.flatMap fun d => flipsInDirection b p x y d.1 d.2)
        (setCell b x y p.cell)
    have h2 : pieceCount (setCell b x y p.cell) p.opp.cell ≤
        pieceCount b p.opp.cell :=
      pieceCount_setCell_le (Ne.symm (cell_ne_opp p))
    exact le_trans h1 h2

/-- Concrete instantiation of `applyMove_piece_counts`: Black opening move
(2,3) on the initial board. -/
theorem applyMove_piece_counts_witness :
    pieceCount initialBoard Player.black.cell <
      pieceCount (applyMove initialBoard Player.black 2 3)
        Player.black.cell ∧
    pieceCount (applyMove initialBoard Player.black 2 3)
        Player.black.opp.cell ≤
      pieceCount initialBoard Player.black.opp.cell :=
  applyMove_piece_counts initialBoard Player.black 2 3 (by decide) (by decide)


/-! ## Claim about the legality algorithm -/

lemma cellAt_eq_some {b : Board} {x y : Int} {c : Cell}
    (h : cellAt b x y = some c) :
    (0 ≤ x ∧ x < 8 ∧ 0 ≤ y ∧ y < 8) ∧
    (b.getD y.toNat []).getD x.toNat Cell.empty = c := by
  unfold cellAt at h
  split_ifs at h with hb
  exact ⟨hb, Option.some.inj h⟩

lemma walkRay_get?_some (b : Board) (dx dy : Int) :
    ∀ (fuel : Nat) (x y : Int) (i : Nat) (c : Cell),
      (walkRay b x y dx dy fuel).get? i = some c →
      cellAt b (x + ((i : Int) + 1) * dx) (y + ((i : Int) + 1) * dy) =
        some c := by
  intro fuel
  induction fuel with
  | zero => intro x y i c h; simp [walkRay] at h
  | succ n ih =>
    intro x y i c h
    rw [walkRay] at h
    cases hc : cellAt b (x + dx) (y + dy) with
    | none => rw [hc] at h; simp at h
    | some c0 =>
      rw [hc] at h
      cases i with
      | zero =>
        rw [List.get?_cons_zero] at h
        have hcc : c0 = c := Option.some.inj h
        subst hcc
        simpa using hc
      | succ j =>
        rw [List.get?_cons_succ] at h
        have hrec := ih (x + dx) (y + dy) j c h
        have e1 : x + dx + ((j : Int) + 1) * dx =
            x + (((j + 1 : Nat) : Int) + 1) * dx := by push_cast; ring
        have e2 : y + dy + ((j : Int) + 1) * dy =
            y + (((j + 1 : Nat) : Int) + 1) * dy := by push_cast; ring
        rw [e1, e2] at hrec
        exact hrec

lemma walkRay_get?_eq (b : Board) (dx dy : Int) :
    ∀ (fuel : Nat) (x y : Int) (i : Nat), i < fuel →
      (∀ j : Nat, 1 ≤ j → j ≤ i + 1 →
        (cellAt b (x + (j : Int) * dx) (y + (j : Int) * dy)).isSome) →
      (walkRay b x y dx dy fuel).get? i =
        cellAt b (x + ((i : Int) + 1) * dx) (y + ((i : Int) + 1) * dy) := by
  intro fuel
  induction fuel with
  | zero => intro x y i hi _; exact absurd hi (by omega)
  | succ n ih =>
    intro x y i hi hall
    have h1 : (cellAt b (x + dx) (y + dy)).isSome := by
      have := hall 1 (le_refl 1) (by omega)
      simpa using this
    obtain ⟨c0, hc⟩ := Option.isSome_iff_exists.mp h1
    rw [walkRay, hc]
    cases i with
    | zero =>
      rw [List.get?_cons_zero]
      have e1 : x + (((0 : Nat) : Int) + 1) * dx = x + dx := by push_cast; ring
      have e2 : y + (((0 : Nat) : Int) + 1) * dy = y + dy := by push_cast; ring
      rw [e1, e2, hc]
    | succ j =>
      rw [List.get?_cons_succ]
      have hall2 : ∀ j2 : Nat, 1 ≤ j2 → j2 ≤ j + 1 →
          (cellAt b (x + dx + (j2 : Int) * dx)
            (y + dy + (j2 : Int) * dy)).isSome := by
        intro j2 hj1 hj2
        have h3 := hall (j2 + 1) (by omega) (by omega)
        have e1 : x + ((j2 + 1 : Nat) : Int) * dx =
            x + dx + (j2 : Int) * dx := by push_cast; ring
        have e2 : y + ((j2 + 1 : Nat) : Int) * dy =
            y + dy + (j2 : Int) * dy := by push_cast; ring
        rw [e1, e2] at h3
        exact h3
      rw [ih (x + dx) (y + dy) j (by omega) hall2]
      have e1 : x + dx + ((j : Int) + 1) * dx =
          x + (((j + 1 : Nat) : Int) + 1) * dx := by push_cast; ring
      have e2 : y + dy + ((j : Int) + 1) * dy =
          y + (((j + 1 : Nat) : Int) + 1) * dy := by push_cast; ring
      rw [e1, e2]

lemma opponentRun_prefix (p : Player) :
    ∀ (l : List Cell) (i : Nat), i < opponentRun p l →
      l.get? i = some p.opp.cell := by
  intro l
  induction l with
  | nil => intro i hi; simp [opponentRun] at hi
  | cons c t ih =>
    intro i hi
    rw [opponentRun] at hi
    by_cases hc : c = p.opp.cell
    · rw [if_pos hc] at hi
      cases i with
      | zero => rw [List.get?_cons_zero, hc]
      | succ j => rw [List.get?_cons_succ]; exact ih j (by omega)
    · rw [if_neg hc] at hi
      omega

lemma opponentRun_eq (p : Player) :
    ∀ (l : List Cell) (k : Nat),
      (∀ i : Nat, i < k → l.get? i = some p.opp.cell) →
      l.get? k = some p.cell → opponentRun p l = k := by
  intro l
  induction l with
  | nil => intro k _ hterm; simp at hterm
  | cons c t ih =>
    intro k hpre hterm
    cases k with
    | zero =>
      rw [List.get?_cons_zero] at hterm
      have hc : c = p.cell := Option.some.inj hterm
      rw [opponentRun, if_neg (by rw [hc]; exact cell_ne_opp p)]
    | succ m =>
      have h0 := hpre 0 (by omega)
      rw [List.get?_cons_zero] at h0
      have hc : c = p.opp.cell := Option.some.inj h0
      rw [List.get?_cons_succ] at hterm
      have hrec := ih m
        (fun i hi => by
          have := hpre (i + 1) (by omega)
          rwa [List.get?_cons_succ] at this)
        hterm
      rw [opponentRun, if_pos hc, hrec]

lemma flank_k_bound {b : Board} {p : Player} {x y : Int} {d : Int × Int}
    {k : Nat} (hd : d ∈ DIRECTIONS) (hb0 : cellAt b x y = some Cell.empty)
    (hterm : cellAt b (x + ((k : Int) + 1) * d.1)
      (y + ((k : Int) + 1) * d.2) = some p.cell) :
    k + 1 < 8 := by
  have h0 := (cellAt_eq_some hb0).1
  have hk := (cellAt_eq_some hterm).1
  fin_cases hd <;> simp at hk <;> omega

/-- C1: `isLegalMove(board, player, x, y)` returns true iff the cell at
`(x, y)` is Empty and some compass direction, walking outward, meets first
`k ≥ 1` opponent pieces and then a same-player piece, all before leaving
the board or hitting an empty cell (the declarative flank condition
`FlankInDir`). -/
theorem isLegalMove_iff_flank :
    ∀ (b : Board) (p : Player) (x y : Int),
      isLegalMove b p x y = true ↔
        (cellAt b x y = some Cell.empty ∧
         ∃ d ∈ DIRECTIONS, FlankInDir b p x y d) := by
  intro b p x y
  constructor
  · intro h
    unfold isLegalMove at h
    rw [Bool.and_eq_true] at h
    obtain ⟨h1, h2⟩ := h
    refine ⟨of_decide_eq_true h1, ?_⟩
    obtain ⟨d, hd, hray⟩ := List.any_eq_true.mp h2
    refine ⟨d, hd, ?_⟩
    unfold rayFlanks at hray
    rw [Bool.and_eq_true] at hray
    have hk1 : 1 ≤ opponentRun p (walkRay b x y d.1 d.2 8) :=
      of_decide_eq_true hray.1
    have hterm : (walkRay b x y d.1 d.2 8).get?
        (opponentRun p (walkRay b x y d.1 d.2 8)) = some p.cell :=
      of_decide_eq_true hray.2
    refine ⟨opponentRun p (walkRay b x y d.1 d.2 8), hk1, ?_, ?_⟩
    · intro i hi1 hik
      have hpref := opponentRun_prefix p (walkRay b x y d.1 d.2 8)
        (i - 1) (by omega)
      have hcell := walkRay_get?_some b d.1 d.2 8 x y (i - 1) _ hpref
      have e1 : ((i - 1 : Nat) : Int) + 1 = (i : Int) := by omega
      rw [e1] at hcell
      exact hcell
    · exact walkRay_get?_some b d.1 d.2 8 x y _ _ hterm
  · rintro ⟨hempty, d, hd, k, hk1, hpre, hterm⟩
    unfold isLegalMove
    rw [Bool.and_eq_true]
    refine ⟨decide_eq_true hempty, ?_⟩
    rw [List.any_eq_true]
    refine ⟨d, hd, ?_⟩
    have hbound : k + 1 < 8 := flank_k_bound hd hempty hterm
    have hsome : ∀ j : Nat, 1 ≤ j → j ≤ k + 1 →
        (cellAt b (x + (j : Int) * d.1) (y + (j : Int) * d.2)).isSome := by
      intro j h1 h2
      rcases Nat.lt_or_ge j (k + 1) with hlt | hge
      · rw [hpre j h1 (by omega)]
        rfl
      · have hj : j = k + 1 := by omega
        subst hj
        have e1 : ((k + 1 : Nat) : Int) = (k : Int) + 1 := by push_cast; ring
        rw [e1, hterm]
        rfl
    have hget : ∀ i : Nat, i ≤ k →
        (walkRay b x y d.1 d.2 8).get? i =
          cellAt b (x + ((i : Int) + 1) * d.1)
            (y + ((i : Int) + 1) * d.2) := by
      intro i hik
      exact walkRay_get?_eq b d.1 d.2 8 x y i (by omega)
        (fun j hj1 hj2 => hsome j hj1 (by omega))
    have hrun : opponentRun p (walkRay b x y d.1 d.2 8) = k := by
      apply opponentRun_eq
      · intro i hi
        rw [hget i (by omega)]
        have hcell := hpre (i + 1) (by omega) (by omega)
        have e1 : ((i + 1 : Nat) : Int) = (i : Int) + 1 := by push_cast; ring
        rw [e1] at hcell
        exact hcell
      · rw [hget k (le_refl k)]
        exact hterm
    unfold rayFlanks
    rw [Bool.and_eq_true, hrun]
    refine ⟨decide_eq_true hk1, decide_eq_true ?_⟩
    rw [hget k (le_refl k)]
    exact hterm

/-- Concrete instantiation of `isLegalMove_iff_flank`: the opening move
(2,3) for Black satisfies the declarative flank condition. -/
theorem isLegalMove_iff_flank_witness :
    cellAt initialBoard 2 3 = some Cell.empty ∧
    ∃ d ∈ DIRECTIONS, FlankInDir initialBoard Player.black 2 3 d :=
  (isLegalMove_iff_flank initialBoard Player.black 2 3).mp (by decide)

end Reversi
